import Mathlib

/-!
Shallow embedding of `src/main.rs` of breach-parse-rs, together with proofs
settling the claims of the specification.

Modelling conventions:
- Bytes are `Nat` (values 0..255 in practice); file contents and matched
  lines are `List Byte`.  Line terminator is byte 10.
- The gzip / zstd decoders are external library code (`flate2::GzDecoder`,
  `flate2::MultiGzDecoder`, `zstd::Decoder`); they are modelled as oracle
  parameters of type `List Byte → Option (List Byte)` (`none` models a
  construction-time or stream error, which the Rust handles by returning an
  empty `Vec`).  `GzDecoder` (single gzip member) and `MultiGzDecoder`
  (all members) are distinct oracles, matching the distinct Rust types.
- The Aho-Corasick matcher (`AhoCorasickBuilder::new().dfa(true).build`,
  default `MatchKind::Standard`) is modelled by `acFindIter`: the
  non-overlapping left-to-right scan that repeatedly reports the
  earliest-ending occurrence of a pattern (ties broken towards the longest
  pattern, then the smallest pattern index, matching the crate's state
  match-list order) and resumes at the end of the reported match.
  Empty patterns are excluded (`patEndsAt` requires a non-empty pattern);
  the program is never run with empty keywords.
- The filesystem is a finite map from path bytes to file contents plus a
  list of directory paths; `fs::metadata(p).is_ok()` is modelled as
  membership of `p` among the files.
-/

namespace BreachParse

abbrev Byte := Nat

/-- ASCII lowercase of one byte, modelling Rust `to_lowercase` on the ASCII
inputs the claims use. -/
def toLowerByte (b : Byte) : Byte := if 65 ≤ b ∧ b ≤ 90 then b + 32 else b

/-- Lowercase of a byte string. -/
def toLowerL (l : List Byte) : List Byte := l.map toLowerByte

/-- The half-open slice `l[s..e]` of Rust. -/
def listSlice (l : List Byte) (s e : Nat) : List Byte := (l.take e).drop s

/-- Split on byte 10, keeping empty segments, modelling Rust
`buffer.split(|&b| b == b'\n')` (n newlines give n+1 segments). -/
def splitNl : List Byte → List (List Byte)
  | [] => [[]]
  | b :: r =>
    if b == 10 then [] :: splitNl r
    else
      match splitNl r with
      | [] => [[b]]
      | s :: ss => (b :: s) :: ss

/-- Index of the first element satisfying `p`, `none` if there is none. -/
def findIdxOpt (p : Byte → Bool) : List Byte → Option Nat
  | [] => none
  | b :: r => if p b then some 0 else (findIdxOpt p r).map (· + 1)

/-- Index of the LAST byte 10 in `l`, modelling Rust
`chunk.iter().rposition(|&b| b == b'\n')`. -/
def rposition (l : List Byte) : Option Nat :=
  match findIdxOpt (fun b => b == 10) l.reverse with
  | some i => some (l.length - 1 - i)
  | none => none

/-- Whether `p` occurs in `l` as a contiguous substring. -/
def occursIn (p l : List Byte) : Bool :=
  (List.range (l.length + 1)).any (fun i => listSlice l i (i + p.length) == p)

/-- Auxiliary for `readToEnd`: cut a stream into chunks of `b` bytes
(`fuel` bounds the recursion; `fuel = s.length` suffices when `0 < b`). -/
def chunksOfAux : Nat → Nat → List Byte → List (List Byte)
  | 0, _, _ => []
  | fuel + 1, b, s => if s.isEmpty then [] else s.take b :: chunksOfAux fuel b (s.drop b)

/-- Model of `Read::read_to_end` pulling the whole stream in bounded reads
of `bufSize` bytes and concatenating them into one buffer. -/
def readToEnd (bufSize : Nat) (s : List Byte) : List Byte :=
  (chunksOfAux s.length bufSize s).flatten

/-- Does the non-empty pattern `p` occur ending exactly at position `e`,
entirely inside `hay[s..]`?  (The automaton was restarted at `s`.) -/
def patEndsAt (hay p : List Byte) (s e : Nat) : Bool :=
  !p.isEmpty && decide (s + p.length ≤ e) && decide (e ≤ hay.length)
    && (listSlice hay (e - p.length) e == p)

/-- Indices of the patterns that end exactly at `e` inside `hay[s..]`. -/
def matchesAt (pats : List (List Byte)) (hay : List Byte) (s e : Nat) : List Nat :=
  (List.range pats.length).filter (fun i => patEndsAt hay (pats.getD i []) s e)

/-- One step of the choice among candidate pattern indices ending at the
same position. -/
def bestStep (pats : List (List Byte)) (acc : Option Nat) (i : Nat) : Option Nat :=
  match acc with
  | none => some i
  | some j => if (pats.getD j []).length < (pats.getD i []).length then some i else some j

/-- Among candidate pattern indices, the one the automaton state reports
first: the longest pattern, ties broken towards the smaller index. -/
def bestIdx (pats : List (List Byte)) (cands : List Nat) : Option Nat :=
  cands.foldl (bestStep pats) none

/-- The next match of the scan restarted at offset `s`: the smallest end
position `e > s` at which some pattern ends, with the reported index. -/
def findNextFrom (pats : List (List Byte)) (hay : List Byte) (s : Nat) : Option (Nat × Nat) :=
  match (List.range' (s + 1) (hay.length - s)).find?
      (fun e => !(matchesAt pats hay s e).isEmpty) with
  | none => none
  | some e =>
    match bestIdx pats (matchesAt pats hay s e) with
    | none => none
    | some i => some (i, e)

/-- Fuel-bounded non-overlapping scan: report a match, resume at its end. -/
def acScanFrom (pats : List (List Byte)) (hay : List Byte) : Nat → Nat → List Nat
  | 0, _ => []
  | fuel + 1, s =>
    match findNextFrom pats hay s with
    | none => []
    | some (i, e) => i :: acScanFrom pats hay fuel e

/-- Pattern indices reported by `ac.find_iter(line)`, in order. -/
def acFindIter (pats : List (List Byte)) (hay : List Byte) : List Nat :=
  acScanFrom pats hay (hay.length + 1) 0

/-- The per-line predicate of `process_file`:
`ac.find_iter(line).map(|m| m.pattern()).collect::<HashSet<_>>().len() == ac.pattern_count()`. -/
def keptLine (pats : List (List Byte)) (line : List Byte) : Bool :=
  (acFindIter pats line).dedup.length == pats.length

/-- The post-decode matching phase shared by all scan paths:
`buffer.par_split(|&b| b == b'\n').filter(|l| !l.is_empty()).filter(pred)`. -/
def matchLines (pats : List (List Byte)) (buffer : List Byte) : List (List Byte) :=
  ((splitNl buffer).filter (fun l => !l.isEmpty)).filter (fun l => keptLine pats l)

/-- Compression kind, derived from the file extension in the Rust. -/
inductive Ext
  | gz
  | zst
  | other
deriving DecidableEq

/-- One corpus file as `process_file` observes it:
its extension, `metadata.len()`, its on-disk bytes (also the mmap view),
and whether `File::open`, `metadata` and `Mmap::map` succeed. -/
structure Shard where
  ext : Ext
  size : Nat
  raw : List Byte
  openOk : Bool
  metaOk : Bool
  mmapOk : Bool
deriving DecidableEq

/-- Model of `optimal_buffer_size` (the argument records whether
`file.metadata()` succeeded). -/
def optimalBufferSize (metaOk : Bool) (size : Nat) : Nat :=
  if metaOk then
    if size < 65536 then 8192
    else if size < 1048576 then 65536
    else if size < 104857600 then 524288
    else 1048576
  else 65536

/-- The buffered fallback path of `process_file`: pick the decoder from the
extension (`GzDecoder` = `gzS`, zstd `Decoder` = `zst`, identity otherwise),
read the decoded stream to the end, and match line by line.  A decode
failure yields an empty result. -/
def bufferedScan (gzS zst : List Byte → Option (List Byte)) (pats : List (List Byte))
    (sh : Shard) (bufSize : Nat) : List (List Byte) :=
  match (match sh.ext with
         | Ext.gz => gzS sh.raw
         | Ext.zst => zst sh.raw
         | Ext.other => some sh.raw) with
  | none => []
  | some d => matchLines pats (readToEnd bufSize d)

/-- Model of `process_memory_mapped_file`: decode the whole mapped view
(`GzDecoder` = `gzS` for `.gz`, zstd `Decoder` = `zst` for `.zst`, the raw
map otherwise) and match line by line. -/
def processMemoryMappedFile (gzS zst : List Byte → Option (List Byte))
    (pats : List (List Byte)) (sh : Shard) : List (List Byte) :=
  match sh.ext with
  | Ext.zst =>
    match zst sh.raw with
    | none => []
    | some d => matchLines pats d
  | Ext.gz =>
    match gzS sh.raw with
    | none => []
    | some d => matchLines pats d
  | Ext.other => matchLines pats sh.raw

/-- One super-chunk of `process_large_file_chunked`: slice `[start, end)`,
move the end back to just after the last newline of the slice (when the
chunk is not the final one), and match the adjusted slice line by line. -/
def processChunk (pats : List (List Byte)) (raw : List Byte) (C start : Nat) :
    List (List Byte) :=
  let len := raw.length
  let e := min (start + C) len
  let chunk := listSlice raw start e
  let adjEnd :=
    if e < len then
      match rposition chunk with
      | some pos => start + pos + 1
      | none => e
    else e
  matchLines pats (listSlice raw start adjEnd)

/-- The chunk start offsets `(0..len).step_by(C)`. -/
def chunkStarts (len C : Nat) : List Nat := List.range' 0 ((len + C - 1) / C) C

/-- `process_large_file_chunked` with the chunk size as a parameter
(the source fixes it to `50 * 1024 * 1024`). -/
def processLargeFileChunkedGen (C : Nat) (pats : List (List Byte)) (raw : List Byte) :
    List (List Byte) :=
  ((chunkStarts raw.length C).map (processChunk pats raw C)).flatten

/-- Model of `process_large_file_chunked` (50MiB super-chunks over the raw
mapped bytes; note that no decoder is ever applied on this path). -/
def processLargeFileChunked (pats : List (List Byte)) (raw : List Byte) :
    List (List Byte) :=
  processLargeFileChunkedGen 52428800 pats raw

/-- Model of `process_file`: memory-map files over 1MiB (chunked matching
over 100MiB), otherwise fall back to the buffered path; a file that cannot
be opened contributes nothing. -/
def processFile (gzS zst : List Byte → Option (List Byte)) (pats : List (List Byte))
    (sh : Shard) : List (List Byte) :=
  if sh.openOk && sh.metaOk then
    if decide (1048576 < sh.size) && sh.mmapOk then
      if 104857600 < sh.size then processLargeFileChunked pats sh.raw
      else processMemoryMappedFile gzS zst pats sh
    else bufferedScan gzS zst pats sh (optimalBufferSize true sh.size)
  else if sh.openOk then bufferedScan gzS zst pats sh 65536
  else []

/-- The scan over all walked files of `main`
(`files.into_par_iter().map(process_file).flat_map(...).collect()`). -/
def scanFiles (gzS zst : List Byte → Option (List Byte)) (pats : List (List Byte))
    (shards : List Shard) : List (List Byte) :=
  (shards.map (processFile gzS zst pats)).flatten

/-- A filesystem: files (path bytes to contents) and directories. -/
structure FS where
  files : List (List Byte × List Byte)
  dirs : List (List Byte)

/-- Model of `fs::metadata(p).is_ok()`. -/
def fsHas (fs : FS) (p : List Byte) : Bool := fs.files.any (fun e => e.1 == p)

/-- Model of a successful `File::open(p)` followed by reading `p`'s bytes. -/
def fsGet (fs : FS) (p : List Byte) : Option (List Byte) :=
  (fs.files.find? (fun e => e.1 == p)).map (fun e => e.2)

/-- Model of `Path::new(p).is_dir()`. -/
def isDirB (fs : FS) (p : List Byte) : Bool := fs.dirs.any (fun d => d == p)

/-- Bytes of the extension string ".gz". -/
def extGz : List Byte := [46, 103, 122]

/-- Bytes of the extension string ".zst". -/
def extZst : List Byte := [46, 122, 115, 116]

/-- Bytes of the extension string ".txt". -/
def extTxt : List Byte := [46, 116, 120, 116]

/-- Bytes of the directory name "symbols". -/
def symbolsSeg : List Byte := [115, 121, 109, 98, 111, 108, 115]

/-- ASCII alphanumeric test, modelling `char::is_alphanumeric` on the ASCII
keys the claims use. -/
def isAlphanumB (b : Byte) : Bool :=
  (48 ≤ b && b ≤ 57) || (65 ≤ b && b ≤ 90) || (97 ≤ b && b ≤ 122)

/-- The early extension probe of `process_email` for the first two key
characters: if a `.gz`, `.zst` or `.txt` sibling exists at the accumulated
path (checked in that order), resolve there and stop routing. -/
def probeEarly (fs : FS) (path : List Byte) : Option (List Byte) :=
  if fsHas fs (path ++ extGz) then some (path ++ extGz)
  else if fsHas fs (path ++ extZst) then some (path ++ extZst)
  else if fsHas fs (path ++ extTxt) then some (path ++ extTxt)
  else none

/-- The extension choice of `process_email` after the third key character:
`.gz` if present, else `.zst` if present, else `.txt` unconditionally. -/
def routeStep2 (fs : FS) (path : List Byte) : List Byte :=
  if fsHas fs (path ++ extGz) then path ++ extGz
  else if fsHas fs (path ++ extZst) then path ++ extZst
  else path ++ extTxt

/-- The routing loop of `process_email` over (at most) the first three
lowercased key characters: push `/` then the character if alphanumeric
(else `symbols`, stopping), probing extensions along the way. -/
def routeLoop (fs : FS) (path : List Byte) (i : Nat) : List Byte → List Byte
  | [] => path
  | c :: rest =>
    if isAlphanumB c then
      if i < 2 then
        match probeEarly fs (path ++ [47, c]) with
        | some q => q
        | none => routeLoop fs (path ++ [47, c]) (i + 1) rest
      else routeStep2 fs (path ++ [47, c])
    else path ++ [47] ++ symbolsSeg

/-- Strip one trailing carriage return, as `bstr` line splitting does. -/
def stripCR (l : List Byte) : List Byte :=
  if l.getLast? == some 13 then l.dropLast else l

/-- Model of `bstr`'s `buffer.lines()`: split on byte 10, drop the empty
segment after a final newline, and strip a trailing carriage return. -/
def bstrLines (b : List Byte) : List (List Byte) :=
  if b.isEmpty then []
  else
    (if b.getLast? == some 10 then (splitNl b).dropLast else splitNl b).map stripCR

/-- The per-line filter of `process_email`:
`line.to_lowercase().starts_with(&keyword_lower)`. -/
def emailLineKeep (keyLower l : List Byte) : Bool :=
  keyLower.isPrefixOf (toLowerL l)

/-- Model of `process_email`: lowercase the key, route it to a shard path,
open and fully decode that shard (`MultiGzDecoder` = `gzM` for `.gz`, zstd
`Decoder` = `zst` for `.zst`), split into lines and keep the lines whose
lowercase form starts with the lowercased key.  Any failure (missing file,
decoder error) yields an empty result. -/
def processEmail (gzM zst : List Byte → Option (List Byte)) (fs : FS)
    (base key : List Byte) : List (List Byte) :=
  let keyLower := toLowerL key
  let path := routeLoop fs base 0 (keyLower.take 3)
  match fsGet fs path with
  | none => []
  | some raw =>
    match (if extGz.isSuffixOf path then gzM raw
           else if extZst.isSuffixOf path then zst raw
           else some raw) with
    | none => []
    | some buf => (bstrLines buf).filter (emailLineKeep keyLower)

/-- The configuration `main` receives from argument parsing. -/
structure ConfigM where
  keyword : List Byte
  keyword2 : Option (List Byte)
  email : Option (List Byte)
  breachLoc : List Byte

/-- Outcome of a run of `main`: `dirMissing` models printing the missing
directory diagnostic and calling `std::process::exit(1)` before any file is
opened or any output written; the other constructors are normal completion
carrying the emitted result lines. -/
inductive MainOutcome
  | dirMissing
  | emailRun : List (List Byte) → MainOutcome
  | scanRun : List (List Byte) → MainOutcome
deriving DecidableEq

/-- Model of `main` after argument parsing: check the corpus root is a
directory (else exit non-zero), then either run the direct-key lookup or
build the pattern list and scan the walked files. -/
def mainRun (gzS gzM zst : List Byte → Option (List Byte)) (fs : FS)
    (shards : List Shard) (cfg : ConfigM) : MainOutcome :=
  if isDirB fs cfg.breachLoc then
    match cfg.email with
    | some e => MainOutcome.emailRun (processEmail gzM zst fs cfg.breachLoc e)
    | none => MainOutcome.scanRun
        (scanFiles gzS zst (cfg.keyword :: cfg.keyword2.toList) shards)
  else MainOutcome.dirMissing

/-! ### Lemmas about bounded reading -/

/-- Concatenating the bounded reads returns the whole stream. -/
lemma chunksOfAux_flatten (b : Nat) (hb : 0 < b) :
    ∀ (fuel : Nat) (s : List Byte), s.length ≤ fuel → (chunksOfAux fuel b s).flatten = s := by
  intro fuel
  induction fuel with
  | zero =>
    intro s hs
    cases s with
    | nil => rfl
    | cons a t => simp at hs
  | succ n ih =>
    intro s hs
    cases s with
    | nil => rfl
    | cons a t =>
      simp only [List.length_cons] at hs
      simp only [chunksOfAux, List.isEmpty_cons, Bool.false_eq_true, if_false,
        List.flatten_cons]
      rw [ih ((a :: t).drop b) (by simp only [List.length_drop, List.length_cons]; omega)]
      exact List.take_append_drop b (a :: t)

/-- The buffer produced by `read_to_end` does not depend on the read
granularity: it is always the whole decoded stream. -/
lemma readToEnd_eq (bufSize : Nat) (hb : 0 < bufSize) (s : List Byte) :
    readToEnd bufSize s = s :=
  chunksOfAux_flatten bufSize hb s.length s le_rfl

/-! ### Soundness of the match scan: every reported pattern occurs -/

lemma bestStep_foldl_mem (pats : List (List Byte)) :
    ∀ (cands : List Nat) (acc : Option Nat) (j : Nat),
      cands.foldl (bestStep pats) acc = some j → acc = some j ∨ j ∈ cands := by
  intro cands
  induction cands with
  | nil => intro acc j h; exact Or.inl h
  | cons c cs ih =>
    intro acc j h
    rw [List.foldl_cons] at h
    rcases ih (bestStep pats acc c) j h with h' | h'
    · cases acc with
      | none =>
        simp [bestStep] at h'
        exact Or.inr (by simp [h'])
      | some k =>
        rw [bestStep] at h'
        by_cases hlt : (pats.getD k []).length < (pats.getD c []).length
        · rw [if_pos hlt] at h'
          exact Or.inr (by simp at h'; simp [h'])
        · rw [if_neg hlt] at h'
          exact Or.inl h'
    · exact Or.inr (List.mem_cons_of_mem c h')

lemma bestIdx_mem {pats : List (List Byte)} {cands : List Nat} {j : Nat}
    (h : bestIdx pats cands = some j) : j ∈ cands := by
  rcases bestStep_foldl_mem pats cands none j h with h' | h'
  · cases h'
  · exact h'

lemma findNextFrom_sound {pats : List (List Byte)} {hay : List Byte} {s i e : Nat}
    (h : findNextFrom pats hay s = some (i, e)) :
    i < pats.length ∧ patEndsAt hay (pats.getD i []) s e = true := by
  rw [findNextFrom] at h
  split at h
  · cases h
  · split at h
    · cases h
    · rename_i _ e0 _ _ i0 hbest
      obtain ⟨rfl, rfl⟩ : i0 = i ∧ e0 = e := by
        have h2 := Option.some.inj h
        exact ⟨congrArg Prod.fst h2, congrArg Prod.snd h2⟩
      have hmem := bestIdx_mem hbest
      rw [matchesAt, List.mem_filter, List.mem_range] at hmem
      exact ⟨hmem.1, hmem.2⟩

lemma patEndsAt_occursIn {hay p : List Byte} {s e : Nat}
    (h : patEndsAt hay p s e = true) : occursIn p hay = true := by
  rw [patEndsAt] at h
  simp only [Bool.and_eq_true, beq_iff_eq, decide_eq_true_eq] at h
  obtain ⟨⟨⟨_, hse⟩, hel⟩, hslice⟩ := h
  rw [occursIn, List.any_eq_true]
  refine ⟨e - p.length, ?_, ?_⟩
  · rw [List.mem_range]; omega
  · have he : e - p.length + p.length = e := by omega
    rw [he, hslice]
    simp

lemma acScanFrom_sound (pats : List (List Byte)) (hay : List Byte) :
    ∀ (fuel s i : Nat), i ∈ acScanFrom pats hay fuel s →
      i < pats.length ∧ occursIn (pats.getD i []) hay = true := by
  intro fuel
  induction fuel with
  | zero => intro s i h; cases h
  | succ n ih =>
    intro s i h
    rw [acScanFrom] at h
    cases hf : findNextFrom pats hay s with
    | none => rw [hf] at h; cases h
    | some pe =>
      rw [hf] at h
      obtain ⟨j, e⟩ := pe
      rcases List.mem_cons.mp h with rfl | h'
      · obtain ⟨hlt, hpat⟩ := findNextFrom_sound hf
        exact ⟨hlt, patEndsAt_occursIn hpat⟩
      · exact ih e i h'

/-- Soundness of the per-line predicate: a kept line contains every
pattern as a contiguous substring. -/
lemma keptLine_all {pats : List (List Byte)} {l : List Byte}
    (h : keptLine pats l = true) :
    ∀ i, i < pats.length → occursIn (pats.getD i []) l = true := by
  intro i hi
  rw [keptLine, beq_iff_eq] at h
  have hsub : (acFindIter pats l).toFinset ⊆ Finset.range pats.length := by
    intro x hx
    rw [List.mem_toFinset] at hx
    exact Finset.mem_range.mpr (acScanFrom_sound pats l _ _ x hx).1
  have hcard : (Finset.range pats.length).card ≤ (acFindIter pats l).toFinset.card := by
    rw [Finset.card_range, List.card_toFinset, h]
  have heq := Finset.eq_of_subset_of_card_le hsub hcard
  have hmem : i ∈ (acFindIter pats l).toFinset := by
    rw [heq]; exact Finset.mem_range.mpr hi
  rw [List.mem_toFinset] at hmem
  exact (acScanFrom_sound pats l _ _ i hmem).2

/-- Contrapositive form: a line missing some pattern is never kept. -/
lemma keptLine_false_of_missing {pats : List (List Byte)} {l p : List Byte}
    (hp : p ∈ pats) (hocc : occursIn p l = false) : keptLine pats l = false := by
  cases hk : keptLine pats l with
  | false => rfl
  | true =>
    obtain ⟨i, hi, rfl⟩ := List.mem_iff_getElem.mp hp
    have hall := keptLine_all hk i hi
    rw [List.getD_eq_getElem _ _ hi] at hall
    rw [hall] at hocc
    cases hocc

/-! ### The chunk-boundary analysis of `process_large_file_chunked` -/

/-- The single query pattern "cdef" used in the boundary analysis. -/
def pats1 : List (List Byte) := [[99, 100, 101, 102]]

/-- A file of `C + 4` bytes whose line "cdef" straddles the chunk boundary
at offset `C`: `C - 2` bytes of 'a', a newline, then "cdef" and a newline. -/
def inputStraddle (C : Nat) : List Byte :=
  List.replicate (C - 2) 97 ++ [10, 99, 100, 101, 102, 10]

lemma inputStraddle_eq (n : Nat) :
    inputStraddle (n + 2) = List.replicate n 97 ++ [10, 99, 100, 101, 102, 10] := by
  simp [inputStraddle]

lemma inputStraddle_length (n : Nat) : (inputStraddle (n + 2)).length = n + 6 := by
  simp [inputStraddle]

lemma occursIn_cdef_replicate (n : Nat) :
    occursIn [99, 100, 101, 102] (List.replicate n 97) = false := by
  rw [Bool.eq_false_iff]
  intro h
  rw [occursIn, List.any_eq_true] at h
  obtain ⟨i, _, hslice⟩ := h
  rw [beq_iff_eq] at hslice
  have h99 : (99 : Byte) ∈ listSlice (List.replicate n 97) i (i + [99, 100, 101, 102].length) := by
    rw [hslice]; simp
  rw [listSlice] at h99
  have hmem : (99 : Byte) ∈ List.replicate n 97 :=
    List.take_subset _ _ (List.drop_subset _ _ h99)
  have h97 := List.eq_of_mem_replicate hmem
  exact absurd h97 (by decide)

lemma keptLine_pats1_replicate (n : Nat) :
    keptLine pats1 (List.replicate n 97) = false :=
  keptLine_false_of_missing (by simp [pats1]) (occursIn_cdef_replicate n)

lemma splitNl_replicate_cons (n : Nat) (l : List Byte) :
    splitNl (List.replicate n 97 ++ 10 :: l) = List.replicate n 97 :: splitNl l := by
  induction n with
  | zero => simp [splitNl]
  | succ m ih =>
    rw [List.replicate_succ, List.cons_append]
    simp only [splitNl, ih]
    simp

lemma matchLines_pats1_repTail (n : Nat) :
    matchLines pats1 (List.replicate n 97 ++ [10]) = [] := by
  have hs : splitNl (List.replicate n 97 ++ [10]) = [List.replicate n 97, []] := by
    have := splitNl_replicate_cons n []
    simpa [splitNl] using this
  cases n with
  | zero => simp [matchLines, splitNl]
  | succ m =>
    rw [matchLines, hs]
    have h1 : (List.replicate (m + 1) (97 : Byte)).isEmpty = false := by
      simp [List.isEmpty_iff]
    simp [List.filter_cons, List.filter_nil, h1, keptLine_pats1_replicate]

lemma processChunk_straddle_zero (n : Nat) :
    processChunk pats1 (inputStraddle (n + 2)) (n + 2) 0 = [] := by
  have hlen : (inputStraddle (n + 2)).length = n + 6 := inputStraddle_length n
  have hmin : min (0 + (n + 2)) (n + 6) = n + 2 := by omega
  have htake : (inputStraddle (n + 2)).take (n + 2) = List.replicate n 97 ++ [10, 99] := by
    rw [inputStraddle_eq, List.take_append_eq_append_take,
      List.take_of_length_le (by simp)]
    simp
  have hrev : (List.replicate n (97 : Byte) ++ [10, 99]).reverse
      = 99 :: 10 :: List.replicate n 97 := by
    simp [List.reverse_append, List.reverse_replicate]
  have hrpos : rposition (List.replicate n 97 ++ [10, 99]) = some n := by
    rw [rposition, hrev]
    simp only [findIdxOpt]
    norm_num
  have htake2 : (inputStraddle (n + 2)).take (n + 1) = List.replicate n 97 ++ [10] := by
    rw [inputStraddle_eq, List.take_append_eq_append_take,
      List.take_of_length_le (by simp)]
    simp
  simp only [processChunk, hlen, hmin, listSlice, List.drop_zero, htake]
  rw [if_pos (by omega : n + 2 < n + 6), hrpos]
  simp only [Nat.zero_add]
  rw [htake2]
  exact matchLines_pats1_repTail n

lemma processChunk_straddle_one (n : Nat) (hn : 2 ≤ n) :
    processChunk pats1 (inputStraddle (n + 2)) (n + 2) (n + 2) = [] := by
  have hlen : (inputStraddle (n + 2)).length = n + 6 := inputStraddle_length n
  have hmin : min ((n + 2) + (n + 2)) (n + 6) = n + 6 := by omega
  have hslice : listSlice (inputStraddle (n + 2)) (n + 2) (n + 6) = [100, 101, 102, 10] := by
    rw [listSlice, List.take_of_length_le (by rw [hlen])]
    rw [inputStraddle_eq, List.drop_append_eq_append_drop,
      List.drop_eq_nil_of_le (by simp)]
    simp
  simp only [processChunk, hlen, hmin]
  rw [if_neg (by omega : ¬ (n + 6 < n + 6))]
  rw [hslice]
  decide

lemma chunkStarts_straddle (n : Nat) (hn : 2 ≤ n) :
    chunkStarts (n + 6) (n + 2) = [0, n + 2] := by
  rw [chunkStarts]
  have hdiv : (n + 6 + (n + 2) - 1) / (n + 2) = 2 := by
    have h1 : n + 6 + (n + 2) - 1 = 3 + 2 * (n + 2) := by omega
    rw [h1, Nat.add_mul_div_right _ _ (by omega : 0 < n + 2),
      Nat.div_eq_of_lt (by omega)]
  rw [hdiv]
  simp [List.range']

/-- C1: for every chunk size `C ≥ 4` (in particular the source's 50MiB), a
file whose line "cdef" straddles the super-chunk boundary at offset `C`
yields NO matches from the chunked path, although line-based matching of
the very same bytes finds the line: the first chunk's backward adjustment
drops the head of the straddling line and the next chunk starts mid-line,
so the line is split and never evaluated whole.  This refutes the claim
that no line is split, duplicated or dropped at a super-chunk boundary. -/
theorem C1_superchunk_boundary_drops_straddling_line (C : Nat) (hC : 4 ≤ C) :
    processLargeFileChunkedGen C pats1 (inputStraddle C) = [] ∧
    matchLines pats1 (inputStraddle C) = [[99, 100, 101, 102]] := by
  obtain ⟨n, rfl⟩ : ∃ n, C = n + 2 := ⟨C - 2, by omega⟩
  have hn : 2 ≤ n := by omega
  constructor
  · rw [processLargeFileChunkedGen, inputStraddle_length, chunkStarts_straddle n hn]
    simp [processChunk_straddle_zero n, processChunk_straddle_one n hn]
  · obtain ⟨m, rfl⟩ : ∃ m, n = m + 1 := ⟨n - 1, by omega⟩
    rw [inputStraddle_eq, matchLines, splitNl_replicate_cons]
    have hsp : splitNl [99, 100, 101, 102, 10] = [[99, 100, 101, 102], []] := by decide
    have hne : (List.replicate (m + 1) (97 : Byte)).isEmpty = false := by
      simp [List.replicate_succ]
    have hkept : keptLine pats1 [99, 100, 101, 102] = true := by decide
    rw [hsp]
    simp [List.filter_cons, List.filter_nil, hne, keptLine_pats1_replicate, hkept]

/-- Witness for C1 at the source's actual chunk size `50 * 1024 * 1024`. -/
theorem C1_superchunk_boundary_drops_straddling_line_witness :
    4 ≤ 52428800 ∧
      (processLargeFileChunkedGen 52428800 pats1 (inputStraddle 52428800) = [] ∧
        matchLines pats1 (inputStraddle 52428800) = [[99, 100, 101, 102]]) :=
  ⟨by omega, C1_superchunk_boundary_drops_straddling_line 52428800 (by omega)⟩

/-- Helper: the dispatch of `process_file` for a shard over 100MiB whose
open, metadata and mmap all succeed is the chunked path over the raw bytes,
regardless of the extension and of the decoders. -/
lemma processFile_large (gzS zst : List Byte → Option (List Byte))
    (pats : List (List Byte)) (sh : Shard) (ho : sh.openOk = true)
    (hm : sh.metaOk = true) (hmm : sh.mmapOk = true) (hsz : 104857600 < sh.size) :
    processFile gzS zst pats sh = processLargeFileChunked pats sh.raw := by
  rw [processFile, ho, hm, hmm]
  have hd : decide (1048576 < sh.size) = true := by
    simp only [decide_eq_true_eq]; omega
  rw [hd]
  simp [hsz]

/-- C2: a compressed shard larger than 100MiB is NOT decoded before chunked
matching: `process_file` hands the raw memory-mapped (still compressed)
bytes straight to `process_large_file_chunked`, and the result does not
depend on either decoder at all.  This refutes the claim that the bytes
are fully decoded into an in-memory buffer first. -/
theorem C2_large_compressed_matched_undecoded
    (gzS gzS' zst zst' : List Byte → Option (List Byte)) (pats : List (List Byte))
    (sh : Shard) (_hcomp : sh.ext = Ext.gz ∨ sh.ext = Ext.zst)
    (ho : sh.openOk = true) (hm : sh.metaOk = true) (hmm : sh.mmapOk = true)
    (hsz : 104857600 < sh.size) :
    processFile gzS zst pats sh = processLargeFileChunked pats sh.raw ∧
    processFile gzS zst pats sh = processFile gzS' zst' pats sh := by
  have h1 := processFile_large gzS zst pats sh ho hm hmm hsz
  have h2 := processFile_large gzS' zst' pats sh ho hm hmm hsz
  exact ⟨h1, h1.trans h2.symm⟩

/-- A decode oracle that always fails, for concrete instantiations. -/
def gzOracle0 : List Byte → Option (List Byte) := fun _ => none

/-- A second always-failing decode oracle, for concrete instantiations. -/
def zstOracle0 : List Byte → Option (List Byte) := fun _ => none

/-- A concrete gzip shard of 104857601 bytes (just over 100MiB). -/
def shLargeGz : Shard :=
  ⟨Ext.gz, 104857601, List.replicate 104857601 97, true, true, true⟩

/-- Witness for C2: a concrete >100MiB `.gz` shard whose scan result equals
the chunked scan of its raw bytes and is unchanged when both decoders are
replaced by completely different ones. -/
theorem C2_large_compressed_matched_undecoded_witness :
    processFile gzOracle0 zstOracle0 pats1 shLargeGz
      = processLargeFileChunked pats1 shLargeGz.raw ∧
    processFile gzOracle0 zstOracle0 pats1 shLargeGz
      = processFile (fun b => some b) (fun b => some b) pats1 shLargeGz :=
  C2_large_compressed_matched_undecoded gzOracle0 (fun b => some b) zstOracle0
    (fun b => some b) pats1 shLargeGz (Or.inl rfl) rfl rfl rfl (by decide)

/-- C4: the buffered path's match result is independent of the read-buffer
size (the buffer size only sets the read granularity and the Rust
`Vec::with_capacity` hint), but the super-chunk size DOES change the match
set: on the bytes "ab\ncdef\n" with pattern "cdef", chunk size 4 returns no
matches while chunk size `1 << 20` (whole file in one chunk) returns the
line, because a line straddling a chunk boundary is dropped.  This refutes
the chunk-size half of the claim. -/
theorem C4_buffer_size_independent_chunk_size_not
    (gzS zst : List Byte → Option (List Byte)) (pats : List (List Byte))
    (sh : Shard) (b1 b2 : Nat) (h1 : 0 < b1) (h2 : 0 < b2) :
    bufferedScan gzS zst pats sh b1 = bufferedScan gzS zst pats sh b2 ∧
    processLargeFileChunkedGen 4 pats1 [97, 98, 10, 99, 100, 101, 102, 10] ≠
      processLargeFileChunkedGen 1048576 pats1 [97, 98, 10, 99, 100, 101, 102, 10] := by
  constructor
  · rw [bufferedScan, bufferedScan]
    cases (match sh.ext with
           | Ext.gz => gzS sh.raw
           | Ext.zst => zst sh.raw
           | Ext.other => some sh.raw) with
    | none => rfl
    | some d =>
      show matchLines pats (readToEnd b1 d) = matchLines pats (readToEnd b2 d)
      rw [readToEnd_eq b1 h1, readToEnd_eq b2 h2]
  · decide

/-- Witness for C4 at the buffer sizes 1 and 4096 on a concrete shard. -/
theorem C4_buffer_size_independent_chunk_size_not_witness :
    bufferedScan gzOracle0 zstOracle0 pats1
        ⟨Ext.other, 4, [102, 111, 111, 10], true, true, true⟩ 1
      = bufferedScan gzOracle0 zstOracle0 pats1
        ⟨Ext.other, 4, [102, 111, 111, 10], true, true, true⟩ 4096 ∧
    processLargeFileChunkedGen 4 pats1 [97, 98, 10, 99, 100, 101, 102, 10] ≠
      processLargeFileChunkedGen 1048576 pats1 [97, 98, 10, 99, 100, 101, 102, 10] :=
  C4_buffer_size_independent_chunk_size_not gzOracle0 zstOracle0 pats1
    ⟨Ext.other, 4, [102, 111, 111, 10], true, true, true⟩ 1 4096 (by decide) (by decide)

/-- C3 (amended): a kept line contains every pattern of the query at least
once (so a line with pattern A twice and pattern B never does not match),
and on the spec's scenario "foo"+"bar" against "foo bar\n" exactly the one
line "foo bar" is emitted, once.  The converse direction of the claim
(every-pattern-occurs implies kept) fails when occurrences overlap; see the
counterexample. -/
theorem C3_and_semantics_amended :
    (∀ (pats : List (List Byte)) (l : List Byte), keptLine pats l = true →
      ∀ p ∈ pats, occursIn p l = true) ∧
    keptLine [[102, 111, 111], [98, 97, 114]] [102, 111, 111, 32, 102, 111, 111] = false ∧
    matchLines [[102, 111, 111], [98, 97, 114]] [102, 111, 111, 32, 98, 97, 114, 10]
      = [[102, 111, 111, 32, 98, 97, 114]] := by
  refine ⟨?_, by decide, by decide⟩
  intro pats l h p hp
  obtain ⟨i, hi, rfl⟩ := List.mem_iff_getElem.mp hp
  have hall := keptLine_all h i hi
  rwa [List.getD_eq_getElem _ _ hi] at hall

/-- Counterexample for C3 as stated: with patterns "ab" and "ba", the line
"aba" contains each pattern at least once, yet the non-overlapping
Aho-Corasick scan reports only "ab" (it resumes after that match's end),
so the line is NOT kept. -/
theorem C3_overlap_counterexample :
    keptLine [[97, 98], [98, 97]] [97, 98, 97] = false ∧
    occursIn [97, 98] [97, 98, 97] = true ∧
    occursIn [98, 97] [97, 98, 97] = true := by decide

/-- Witness for C3's amended theorem at a concrete line and pattern set. -/
theorem C3_and_semantics_amended_witness :
    keptLine [[102, 111, 111]] [102, 111, 111, 32] = true ∧
    occursIn [102, 111, 111] [102, 111, 111, 32] = true :=
  ⟨by decide, C3_and_semantics_amended.1 [[102, 111, 111]] [102, 111, 111, 32]
    (by decide) [102, 111, 111] (by decide)⟩

/-- C10: scan-path matching is byte-exact: a line is kept only if every
pattern occurs in it byte-for-byte, so the case-changed pattern "Foo" does
not match the line "foo bar" while "foo" does; the direct-key path instead
lowercases both sides, so key "FOO" accepts the line "foo@x". -/
theorem C10_scan_case_sensitive_email_lowercased :
    (∀ (pats : List (List Byte)) (l p : List Byte), p ∈ pats →
      occursIn p l = false → keptLine pats l = false) ∧
    keptLine [[70, 111, 111]] [102, 111, 111, 32, 98, 97, 114] = false ∧
    keptLine [[102, 111, 111]] [102, 111, 111, 32, 98, 97, 114] = true ∧
    emailLineKeep (toLowerL [70, 79, 79]) [102, 111, 111, 64, 120] = true := by
  refine ⟨?_, by decide, by decide, by decide⟩
  intro pats l p hp hocc
  exact keptLine_false_of_missing hp hocc

/-- Witness for C10 at the concrete pattern "Foo" and line "foo". -/
theorem C10_scan_case_sensitive_email_lowercased_witness :
    keptLine [[70, 111, 111]] [102, 111, 111] = false :=
  C10_scan_case_sensitive_email_lowercased.1 [[70, 111, 111]] [102, 111, 111]
    [70, 111, 111] (by decide) (by decide)

/-- C6: a shard that cannot be opened contributes nothing; a shard on any
decoding path (any shard of at most 100MiB) whose decoder fails contributes
nothing; and a shard contributing nothing can be removed from the walked
list without changing the run's matches — so the run continues and healthy
shards are unaffected. -/
theorem C6_corrupt_shard_contained
    (gzS zst : List Byte → Option (List Byte)) (pats : List (List Byte))
    (sh : Shard) (xs ys : List Shard) :
    (sh.openOk = false → processFile gzS zst pats sh = []) ∧
    (sh.ext = Ext.gz → sh.size ≤ 104857600 → gzS sh.raw = none →
      processFile gzS zst pats sh = []) ∧
    (sh.ext = Ext.zst → sh.size ≤ 104857600 → zst sh.raw = none →
      processFile gzS zst pats sh = []) ∧
    (processFile gzS zst pats sh = [] →
      scanFiles gzS zst pats (xs ++ sh :: ys) = scanFiles gzS zst pats (xs ++ ys)) := by
  refine ⟨?_, ?_, ?_, ?_⟩
  · intro ho
    simp [processFile, ho]
  · intro hgz hsz hdec
    have hlt : ¬ (104857600 < sh.size) := by omega
    have hbuf : ∀ b, bufferedScan gzS zst pats sh b = [] := by
      intro b; simp [bufferedScan, hgz, hdec]
    have hmmap : processMemoryMappedFile gzS zst pats sh = [] := by
      simp [processMemoryMappedFile, hgz, hdec]
    cases ho : sh.openOk <;> cases hm : sh.metaOk <;>
      simp [processFile, ho, hm, hbuf, hmmap, hlt]
  · intro hzst hsz hdec
    have hlt : ¬ (104857600 < sh.size) := by omega
    have hbuf : ∀ b, bufferedScan gzS zst pats sh b = [] := by
      intro b; simp [bufferedScan, hzst, hdec]
    have hmmap : processMemoryMappedFile gzS zst pats sh = [] := by
      simp [processMemoryMappedFile, hzst, hdec]
    cases ho : sh.openOk <;> cases hm : sh.metaOk <;>
      simp [processFile, ho, hm, hbuf, hmmap, hlt]
  · intro hempty
    simp [scanFiles, hempty]

/-- A concrete corrupt zstd shard: the decoder fails on its bytes. -/
def shCorruptZst : Shard := ⟨Ext.zst, 3, [9, 9, 9], true, true, true⟩

/-- A concrete healthy plain shard containing the line "foo". -/
def shHealthy1 : Shard := ⟨Ext.other, 7, [102, 111, 111, 10, 120, 121, 10], true, true, true⟩

/-- A concrete healthy plain shard containing the line "barfoo". -/
def shHealthy2 : Shard := ⟨Ext.other, 7, [98, 97, 114, 102, 111, 111, 10], true, true, true⟩

/-- Witness for C6: a corrupt zstd shard between two healthy shards
contributes nothing and leaves the healthy shards' matches unchanged. -/
theorem C6_corrupt_shard_contained_witness :
    processFile gzOracle0 zstOracle0 [[102, 111, 111]] shCorruptZst = [] ∧
    scanFiles gzOracle0 zstOracle0 [[102, 111, 111]]
        [shHealthy1, shCorruptZst, shHealthy2]
      = scanFiles gzOracle0 zstOracle0 [[102, 111, 111]] [shHealthy1, shHealthy2] := by
  have h := C6_corrupt_shard_contained gzOracle0 zstOracle0 [[102, 111, 111]]
    shCorruptZst [shHealthy1] [shHealthy2]
  have hc : processFile gzOracle0 zstOracle0 [[102, 111, 111]] shCorruptZst = [] :=
    h.2.2.1 rfl (by decide) rfl
  exact ⟨hc, h.2.2.2 hc⟩

/-- C9: when the corpus root is not a directory, `main` stops with the
non-zero-exit outcome before any shard is opened or output produced,
whatever the filesystem and walked files contain. -/
theorem C9_missing_root_exits_before_scan
    (gzS gzM zst : List Byte → Option (List Byte)) (fs : FS) (shards : List Shard)
    (cfg : ConfigM) (h : isDirB fs cfg.breachLoc = false) :
    mainRun gzS gzM zst fs shards cfg = MainOutcome.dirMissing := by
  simp [mainRun, h]

/-- Witness for C9 at a concrete empty filesystem and default root. -/
theorem C9_missing_root_exits_before_scan_witness :
    mainRun gzOracle0 gzOracle0 zstOracle0 ⟨[], []⟩ []
      ⟨[102], none, none, [100, 97, 116, 97]⟩ = MainOutcome.dirMissing :=
  C9_missing_root_exits_before_scan gzOracle0 gzOracle0 zstOracle0 ⟨[], []⟩ []
    ⟨[102], none, none, [100, 97, 116, 97]⟩ rfl

/-- C8 (amended): when the routed shard path cannot be opened, the lookup
returns normally with an empty result set and `main` completes as an
ordinary email run (exit code zero); it is terminal only in the sense that
nothing else is searched, and no error is reported. -/
theorem C8_missing_shard_empty_success
    (gzS gzM zst : List Byte → Option (List Byte)) (fs : FS) (base key : List Byte)
    (shards : List Shard) (kw : List Byte)
    (hres : fsGet fs (routeLoop fs base 0 ((toLowerL key).take 3)) = none)
    (hdir : isDirB fs base = true) :
    processEmail gzM zst fs base key = [] ∧
    mainRun gzS gzM zst fs shards ⟨kw, none, some key, base⟩
      = MainOutcome.emailRun [] := by
  have h1 : processEmail gzM zst fs base key = [] := by
    simp [processEmail, hres]
  exact ⟨h1, by simp [mainRun, hdir, h1]⟩

/-- Counterexample for C8 as stated: the corpus root exists but no shard is
at the routed path for the key "q"; the lookup returns normally with the
empty list — the same value as a successful query with no matching lines —
and the run completes as a normal email run.  No error outcome occurs. -/
theorem C8_missing_shard_counterexample :
    processEmail gzOracle0 zstOracle0 ⟨[], [[100, 97, 116, 97]]⟩
      [100, 97, 116, 97] [113] = [] ∧
    mainRun gzOracle0 gzOracle0 zstOracle0 ⟨[], [[100, 97, 116, 97]]⟩ []
      ⟨[], none, some [113], [100, 97, 116, 97]⟩ = MainOutcome.emailRun [] := by
  decide

/-- Witness for C8's amended theorem at the concrete key "r". -/
theorem C8_missing_shard_empty_success_witness :
    processEmail gzOracle0 zstOracle0 ⟨[], [[100, 97, 116, 97]]⟩
      [100, 97, 116, 97] [114] = [] ∧
    mainRun gzOracle0 gzOracle0 zstOracle0 ⟨[], [[100, 97, 116, 97]]⟩ []
      ⟨[107], none, some [114], [100, 97, 116, 97]⟩ = MainOutcome.emailRun [] :=
  C8_missing_shard_empty_success gzOracle0 gzOracle0 zstOracle0
    ⟨[], [[100, 97, 116, 97]]⟩ [100, 97, 116, 97] [114] [] [107]
    (by decide) (by decide)

/-! ### Direct-key lookup: routing, decoding, filtering -/

lemma not_suffix_gz_txt (q : List Byte) : ¬ (extGz <:+ (q ++ extTxt)) := by
  rintro ⟨t, ht⟩
  have hlen : t.length + extGz.length = q.length + extTxt.length := by
    have := congrArg List.length ht
    simpa using this
  have ht' : t.length = q.length + 1 := by
    simp [extGz, extTxt] at hlen
    omega
  have hdrop := congrArg (List.drop t.length) ht
  rw [List.drop_left, ht', List.drop_append_eq_append_drop,
    List.drop_eq_nil_of_le (by omega)] at hdrop
  simp [extGz, extTxt] at hdrop

lemma not_suffix_zst_txt (q : List Byte) : ¬ (extZst <:+ (q ++ extTxt)) := by
  rintro ⟨t, ht⟩
  have hlen : t.length + extZst.length = q.length + extTxt.length := by
    have := congrArg List.length ht
    simpa using this
  have ht' : t.length = q.length := by
    simp [extZst, extTxt] at hlen
    omega
  have hdrop := congrArg (List.drop t.length) ht
  rw [List.drop_left, ht', List.drop_append_eq_append_drop,
    List.drop_eq_nil_of_le (by omega)] at hdrop
  simp [extZst, extTxt] at hdrop

/-- Unfolding of the routing loop over three alphanumeric key characters
whose early probes all fail and whose final `.gz`/`.zst` probes fail: the
resolved path is `base/c0/c1/c2.txt`. -/
lemma routeLoop_three (fs : FS) (base : List Byte) (c0 c1 c2 : Byte)
    (h0 : isAlphanumB c0 = true) (h1 : isAlphanumB c1 = true) (h2 : isAlphanumB c2 = true)
    (hp1 : probeEarly fs (base ++ [47, c0]) = none)
    (hp2 : probeEarly fs (base ++ [47, c0, 47, c1]) = none)
    (hg : fsHas fs (base ++ 47 :: c0 :: 47 :: c1 :: 47 :: c2 :: extGz) = false)
    (hz : fsHas fs (base ++ 47 :: c0 :: 47 :: c1 :: 47 :: c2 :: extZst) = false) :
    routeLoop fs base 0 [c0, c1, c2]
      = base ++ 47 :: c0 :: 47 :: c1 :: 47 :: c2 :: extTxt := by
  simp [routeLoop, h0, h1, h2, hp1, hp2, routeStep2, hg, hz]

/-- C5: a direct-key lookup whose lowercased key starts with three
alphanumeric characters, with no shard intercepting the early probes, is
routed to `base/c0/c1/c2.txt`; the resolved shard's lines are filtered by
case-insensitive prefix against the lowercased key, and when every stored
line carries the key as prefix (the round-trip scenario) exactly the stored
lines come back. -/
theorem C5_email_lookup_roundtrip
    (gzM zst : List Byte → Option (List Byte)) (fs : FS) (base key : List Byte)
    (c0 c1 c2 : Byte) (rest : List Byte) (R : List Byte)
    (hkey : toLowerL key = c0 :: c1 :: c2 :: rest)
    (h0 : isAlphanumB c0 = true) (h1 : isAlphanumB c1 = true) (h2 : isAlphanumB c2 = true)
    (hp1 : probeEarly fs (base ++ [47, c0]) = none)
    (hp2 : probeEarly fs (base ++ [47, c0, 47, c1]) = none)
    (hg : fsHas fs (base ++ 47 :: c0 :: 47 :: c1 :: 47 :: c2 :: extGz) = false)
    (hz : fsHas fs (base ++ 47 :: c0 :: 47 :: c1 :: 47 :: c2 :: extZst) = false)
    (hget : fsGet fs (base ++ 47 :: c0 :: 47 :: c1 :: 47 :: c2 :: extTxt) = some R) :
    processEmail gzM zst fs base key
      = (bstrLines R).filter (emailLineKeep (toLowerL key)) ∧
    ((∀ l ∈ bstrLines R, emailLineKeep (toLowerL key) l = true) →
      processEmail gzM zst fs base key = bstrLines R) := by
  have hroute : routeLoop fs base 0 ((toLowerL key).take 3)
      = base ++ 47 :: c0 :: 47 :: c1 :: 47 :: c2 :: extTxt := by
    rw [hkey]
    simpa using routeLoop_three fs base c0 c1 c2 h0 h1 h2 hp1 hp2 hg hz
  have hsufgz : ¬ (extGz <:+ base ++ 47 :: c0 :: 47 :: c1 :: 47 :: c2 :: extTxt) := by
    simpa using not_suffix_gz_txt (base ++ [47, c0, 47, c1, 47, c2])
  have hsufzst : ¬ (extZst <:+ base ++ 47 :: c0 :: 47 :: c1 :: 47 :: c2 :: extTxt) := by
    simpa using not_suffix_zst_txt (base ++ [47, c0, 47, c1, 47, c2])
  have hmain : processEmail gzM zst fs base key
      = (bstrLines R).filter (emailLineKeep (toLowerL key)) := by
    simp [processEmail, hroute, hget, hsufgz, hsufzst]
  refine ⟨hmain, fun hall => ?_⟩
  rw [hmain, List.filter_eq_self.mpr hall]

/-- Bytes of the key "alice@example.com". -/
def keyAlice : List Byte :=
  [97, 108, 105, 99, 101, 64, 101, 120, 97, 109, 112, 108, 101, 46, 99, 111, 109]

/-- Bytes of the record line "alice@example.com:pw". -/
def lineAlice : List Byte := keyAlice ++ [58, 112, 119]

/-- A filesystem holding exactly the routed shard `data/a/l/i.txt` whose
contents are the single inserted record line. -/
def fsAlice : FS :=
  ⟨[([100, 97, 116, 97, 47, 97, 47, 108, 47, 105, 46, 116, 120, 116],
     lineAlice ++ [10])], [[100, 97, 116, 97]]⟩

/-- Witness for C5: inserting "alice@example.com:pw" at `data/a/l/i.txt`
and looking up "alice@example.com" returns exactly that line. -/
theorem C5_email_lookup_roundtrip_witness :
    processEmail gzOracle0 zstOracle0 fsAlice [100, 97, 116, 97] keyAlice
      = bstrLines (lineAlice ++ [10]) ∧
    bstrLines (lineAlice ++ [10]) = [lineAlice] := by
  have h := C5_email_lookup_roundtrip gzOracle0 zstOracle0 fsAlice [100, 97, 116, 97]
    keyAlice 97 108 105 [99, 101, 64, 101, 120, 97, 109, 112, 108, 101, 46, 99, 111, 109]
    (lineAlice ++ [10]) (by decide) (by decide) (by decide) (by decide)
    (by decide) (by decide) (by decide) (by decide) (by decide)
  exact ⟨h.2 (by decide), by decide⟩

/-! ### Which gzip decoder each path constructs -/

lemma optimalBufferSize_pos (m : Bool) (s : Nat) : 0 < optimalBufferSize m s := by
  rw [optimalBufferSize]
  split_ifs <;> omega

/-- C7 (amended): on a `.gz` shard the buffered scan path and the
memory-mapped scan path apply the single-member gzip decoder (`GzDecoder`,
oracle `gzS`) — their result is fully determined by that oracle — while the
direct-key lookup applies the multi-member decoder (`MultiGzDecoder`,
oracle `gzM`); so gzip members after the first are searched only by the
direct-key path. -/
theorem C7_gz_decoder_selection
    (gzS gzM zst : List Byte → Option (List Byte)) (pats : List (List Byte))
    (sh : Shard) (fs : FS) (base key p raw : List Byte) :
    (sh.ext = Ext.gz → sh.openOk = true → sh.metaOk = true → sh.size ≤ 1048576 →
      processFile gzS zst pats sh
        = (match gzS sh.raw with
           | none => []
           | some d => matchLines pats d)) ∧
    (sh.ext = Ext.gz → sh.openOk = true → sh.metaOk = true → 1048576 < sh.size →
      sh.size ≤ 104857600 → sh.mmapOk = true →
      processFile gzS zst pats sh
        = (match gzS sh.raw with
           | none => []
           | some d => matchLines pats d)) ∧
    (routeLoop fs base 0 ((toLowerL key).take 3) = p → extGz.isSuffixOf p = true →
      fsGet fs p = some raw →
      processEmail gzM zst fs base key
        = (match gzM raw with
           | none => []
           | some b => (bstrLines b).filter (emailLineKeep (toLowerL key)))) := by
  refine ⟨?_, ?_, ?_⟩
  · intro hgz ho hm hsz
    have hd : (decide (1048576 < sh.size)) = false := decide_eq_false (by omega)
    cases hr : gzS sh.raw with
    | none => simp [processFile, ho, hm, hd, bufferedScan, hgz, hr]
    | some d =>
      simp [processFile, ho, hm, hd, bufferedScan, hgz, hr,
        readToEnd_eq _ (optimalBufferSize_pos true sh.size) d]
  · intro hgz ho hm hsz1 hsz2 hmm
    have hd : (decide (1048576 < sh.size)) = true := decide_eq_true hsz1
    have hlt : ¬ (104857600 < sh.size) := by omega
    cases hr : gzS sh.raw with
    | none => simp [processFile, ho, hm, hd, hmm, hlt, processMemoryMappedFile, hgz, hr]
    | some d => simp [processFile, ho, hm, hd, hmm, hlt, processMemoryMappedFile, hgz, hr]
  · intro hr hsuf hget
    cases hgm : gzM raw with
    | none => simp [processEmail, hr, hsuf, hget, hgm]
    | some b => simp [processEmail, hr, hsuf, hget, hgm]

/-- The single-member decode of a two-member gzip shard: the first member
"no\n" only, as `flate2::GzDecoder` stops at the end of the first member. -/
def gzSingleTwoMember : List Byte → Option (List Byte) := fun _ => some [110, 111, 10]

/-- The multi-member decode of the same shard: both members "no\ncdef\n",
as `flate2::MultiGzDecoder` decodes all members. -/
def gzMultiTwoMember : List Byte → Option (List Byte) :=
  fun _ => some [110, 111, 10, 99, 100, 101, 102, 10]

/-- A small `.gz` shard whose compressed bytes are opaque. -/
def shTwoMemberGz : Shard := ⟨Ext.gz, 3, [7, 7, 7], true, true, true⟩

/-- A filesystem holding the same compressed shard at `data/c.gz`. -/
def fsTwoMemberGz : FS :=
  ⟨[([100, 97, 116, 97, 47, 99, 46, 103, 122], [7, 7, 7])], [[100, 97, 116, 97]]⟩

/-- Counterexample for C7 as stated: on a two-member gzip shard the scan
path constructs the single-member `GzDecoder`, so it finds nothing even
though the full multi-member content holds the matching line "cdef"; the
direct-key path constructs `MultiGzDecoder` on the same raw bytes and does
surface that line. -/
theorem C7_single_member_counterexample :
    processFile gzSingleTwoMember zstOracle0 pats1 shTwoMemberGz = [] ∧
    matchLines pats1 [110, 111, 10, 99, 100, 101, 102, 10] = [[99, 100, 101, 102]] ∧
    processEmail gzMultiTwoMember zstOracle0 fsTwoMemberGz [100, 97, 116, 97] [99]
      = [[99, 100, 101, 102]] := by decide

/-- Witness for C7's amended theorem on the concrete two-member shard. -/
theorem C7_gz_decoder_selection_witness :
    processFile gzSingleTwoMember zstOracle0 pats1 shTwoMemberGz
      = (match gzSingleTwoMember shTwoMemberGz.raw with
         | none => []
         | some d => matchLines pats1 d) :=
  (C7_gz_decoder_selection gzSingleTwoMember gzMultiTwoMember zstOracle0 pats1
    shTwoMemberGz ⟨[], []⟩ [] [] [] []).1 rfl rfl rfl (by decide)

end BreachParse
